import Mathlib

/-!
Verification of the FindFiles utility (src/FindFiles.cpp) against its
design specification.  The C++ source is shallowly embedded: wide strings
become `List Char`, `std::chrono::system_clock::time_point` becomes `Int`
(seconds since the Unix epoch), `std::optional` becomes `Option`, and the
`std::wregex` machinery is modelled by an explicit regex abstract syntax
together with a Brzozowski-derivative matcher covering the constructs the
program emits and uses (`^`, `$` at the pattern ends, `.`, `*`, `+`, `?`,
backslash escapes and literal characters; matching is case-insensitive,
mirroring `std::regex_constants::icase`).
-/

set_option maxHeartbeats 1000000
set_option linter.unusedVariables false

namespace FindFiles

/-- Wide strings (`std::wstring`) are modelled as lists of characters. -/
abbrev WStr := List Char

/-- Case-insensitive character comparison, modelling the effect of
`std::regex_constants::icase` on single-character matching. -/
def charEqIcase (p c : Char) : Bool := p.toLower == c.toLower

/-! ### Regex abstract syntax and matcher -/

/-- Regular-expression abstract syntax: the fragment of ECMAScript regexes
that `FindFiles` produces (via `dosPatternToRegex`) or that the verbatim
regex mode needs here.  `empty` is the regex matching no string. -/
inductive Reg : Type where
  | empty : Reg
  | eps : Reg
  | any : Reg
  | lit : Char → Reg
  | seq : Reg → Reg → Reg
  | alt : Reg → Reg → Reg
  | star : Reg → Reg
deriving DecidableEq, Repr

/-- Does the regex accept the empty string? -/
def Reg.nullable : Reg → Bool
  | .empty => false
  | .eps => true
  | .any => false
  | .lit _ => false
  | .seq a b => a.nullable && b.nullable
  | .alt a b => a.nullable || b.nullable
  | .star _ => true

/-- Brzozowski derivative of a regex with respect to one character
(matching characters case-insensitively, as `icase` dictates). -/
def Reg.deriv : Reg → Char → Reg
  | .empty, _ => .empty
  | .eps, _ => .empty
  | .any, _ => .eps
  | .lit p, c => if charEqIcase p c then .eps else .empty
  | .seq a b, c =>
      if a.nullable then .alt (.seq (a.deriv c) b) (b.deriv c)
      else .seq (a.deriv c) b
  | .alt a b, c => .alt (a.deriv c) (b.deriv c)
  | .star a, c => .seq (a.deriv c) (.star a)

/-- Executable full-string acceptance: the regex matches the whole string. -/
def Reg.accepts (r : Reg) (s : WStr) : Bool :=
  (s.foldl Reg.deriv r).nullable

/-- Declarative matching semantics for the regex fragment. -/
inductive Reg.Matches : Reg → WStr → Prop where
  | eps : Reg.Matches .eps []
  | any (c : Char) : Reg.Matches .any [c]
  | lit {p c : Char} : charEqIcase p c = true → Reg.Matches (.lit p) [c]
  | seq {a b : Reg} {s t : WStr} :
      Reg.Matches a s → Reg.Matches b t → Reg.Matches (.seq a b) (s ++ t)
  | altL {a b : Reg} {s : WStr} : Reg.Matches a s → Reg.Matches (.alt a b) s
  | altR {a b : Reg} {s : WStr} : Reg.Matches b s → Reg.Matches (.alt a b) s
  | starNil {a : Reg} : Reg.Matches (.star a) []
  | starCons {a : Reg} {s t : WStr} :
      Reg.Matches a s → Reg.Matches (.star a) t →
      Reg.Matches (.star a) (s ++ t)

/-! ### Regex concrete syntax (the subset the program relies on)

`std::wregex` construction is modelled by a parser from the pattern string
to `Reg`, recognising the ECMAScript constructs that `dosPatternToRegex`
emits, plus the common quantifiers: a leading `^` and a trailing `$`
anchor, `.`, postfix `*`/`+`/`?`, backslash escapes, and ordinary literal
characters.  Any other metacharacter use (character classes, groups,
alternation, bounded repetition, misplaced anchors or quantifiers) is
rejected, i.e. treated as an invalid pattern. -/

/-- The ECMAScript regex metacharacters: these may not appear bare as an
ordinary literal atom. -/
def isRegexMeta (c : Char) : Bool :=
  c = '^' || c = '$' || c = '\\' || c = '.' || c = '*' || c = '+' ||
  c = '?' || c = '(' || c = ')' || c = '[' || c = ']' || c = '{' ||
  c = '}' || c = '|'

/-- Parse a single atom (`.`, an escape, or a literal character). -/
def parseAtom : WStr → Option (Reg × WStr)
  | [] => none
  | '.' :: rest => some (.any, rest)
  | '\\' :: c :: rest => some (.lit c, rest)
  | ['\\'] => none
  | c :: rest => if isRegexMeta c then none else some (.lit c, rest)

/-- Parse an atom together with an optional postfix quantifier. -/
def parseTerm (s : WStr) : Option (Reg × WStr) :=
  match parseAtom s with
  | none => none
  | some (a, rest) =>
    match rest with
    | '*' :: rest' => some (.star a, rest')
    | '+' :: rest' => some (.seq a (.star a), rest')
    | '?' :: rest' => some (.alt a .eps, rest')
    | _ => some (a, rest)

/-- Fuel-indexed worker for `parseBody`: parse a sequence of terms up to
the end of the pattern, recognising an optional final `$` anchor.  Each
step consumes at least one character, so `s.length` fuel always suffices
(`parseBodyFuel_congr` below). -/
def parseBodyFuel : Nat → WStr → Option (Reg × Bool)
  | _, [] => some (.eps, false)
  | 0, _ :: _ => none
  | fuel + 1, c :: rest =>
      if c = '$' ∧ rest = [] then some (.eps, true)
      else
        match parseTerm (c :: rest) with
        | none => none
        | some (a, r) =>
            match parseBodyFuel fuel r with
            | none => none
            | some (b, e) => some (.seq a b, e)

/-- Parse a sequence of terms up to the end of the pattern, recognising an
optional final `$` anchor.  Returns the body regex and the end-anchor flag,
or `none` for an invalid pattern. -/
def parseBody (s : WStr) : Option (Reg × Bool) :=
  parseBodyFuel s.length s

/-- A compiled pattern: the body regex together with the start/end anchor
flags, modelling a `std::wregex` whose anchors (if any) are at the ends. -/
structure CRegex where
  anchStart : Bool
  body : Reg
  anchEnd : Bool
deriving DecidableEq, Repr

/-- Compile a regex source string (`std::wregex` construction): an optional
leading `^`, a term sequence, an optional trailing `$`.  `none` models a
`std::regex_error` being thrown. -/
def parseRegex (s : WStr) : Option CRegex :=
  match s with
  | [] => (parseBody []).map (fun p => ⟨false, p.1, p.2⟩)
  | c :: rest =>
      if c = '^' then (parseBody rest).map (fun p => ⟨true, p.1, p.2⟩)
      else (parseBody (c :: rest)).map (fun p => ⟨false, p.1, p.2⟩)

/-- `std::regex_search`: does any substring of `s` (with the anchors
constraining which substrings are eligible) match the body? -/
def regexSearch (r : CRegex) (s : WStr) : Bool :=
  match r.anchStart, r.anchEnd with
  | true, true => r.body.accepts s
  | true, false =>
      (List.range (s.length + 1)).any fun n => r.body.accepts (s.take n)
  | false, true =>
      (List.range (s.length + 1)).any fun i => r.body.accepts (s.drop i)
  | false, false =>
      (List.range (s.length + 1)).any fun i =>
        (List.range (s.length - i + 1)).any fun n =>
          r.body.accepts ((s.drop i).take n)

/-! ### The program's pattern handling (`FileFinder`) -/

/-- The characters `FileFinder::dosPatternToRegex` escapes with a
backslash (its `switch` cases other than `*` and `?`). -/
def isDosEscapedChar (c : Char) : Bool :=
  c = '.' || c = '[' || c = ']' || c = '(' || c = ')' ||
  c = '{' || c = '}' || c = '+' || c = '^' || c = '$' ||
  c = '|' || c = '\\'

/-- Translation of one wildcard-pattern character, as in the loop body of
`FileFinder::dosPatternToRegex`. -/
def dosCharToRegex (c : Char) : WStr :=
  if c = '*' then ['.', '*']
  else if c = '?' then ['.']
  else if isDosEscapedChar c then ['\\', c]
  else [c]

/-- `FileFinder::dosPatternToRegex`: escape regex metacharacters, translate
`*` and `?`, and add `^`/`$` anchors exactly when `pathMatch` is false. -/
def dosPatternToRegex (pattern : WStr) (pathMatch : Bool) : WStr :=
  (if !pathMatch then ['^'] else []) ++
    pattern.flatMap dosCharToRegex ++
    (if !pathMatch then ['$'] else [])

/-- The pattern-compilation step of `FileFinder::findFiles` (the `try`
block): in regex mode the source string is handed to `std::wregex`
verbatim; in wildcard mode it is translated first.  `none` corresponds to
the `std::regex_error` catch branch. -/
def compilePattern (pattern : WStr) (useRegex pathMatch : Bool) :
    Option CRegex :=
  if useRegex then parseRegex pattern
  else parseRegex (dosPatternToRegex pattern pathMatch)

/-- The candidate string `findFiles` tests the compiled pattern against:
the full path in path-match mode, the bare filename otherwise. -/
def stringToMatch (pathMatch : Bool) (fileName fullPath : WStr) : WStr :=
  if pathMatch then fullPath else fileName

/-! ### Wildcard matching semantics (spec side)

The specification describes wildcard matching as: `*` matches any run of
characters, `?` matches exactly one character, other characters match
themselves, all case-insensitively.  `wildSpecMatch` is that description,
written directly from the spec's words; the refinement theorems below
relate it to the program's translate-then-regex pipeline. -/

/-- Entire-string wildcard matching, as the spec describes it. -/
def wildSpecMatch : WStr → WStr → Bool
  | [], [] => true
  | [], _ :: _ => false
  | '*' :: p, s =>
      wildSpecMatch p s ||
        (match s with
         | [] => false
         | _ :: s' => wildSpecMatch ('*' :: p) s')
  | '?' :: p, s =>
      (match s with
       | [] => false
       | _ :: s' => wildSpecMatch p s')
  | c :: p, s =>
      (match s with
       | [] => false
       | d :: s' => charEqIcase c d && wildSpecMatch p s')
termination_by p s => (s.length, p.length)

/-- The regex atom a single wildcard character translates to. -/
def wildAtom (c : Char) : Reg :=
  if c = '*' then .star .any
  else if c = '?' then .any
  else .lit c

/-- The regex that the translation of a whole wildcard pattern parses to. -/
def regOfWild : WStr → Reg
  | [] => .eps
  | c :: p => .seq (wildAtom c) (regOfWild p)

/-- `headOK s`: `s` does not start with a quantifier character, so a
preceding term is not extended when parsing continues with `s`. -/
def headOK : WStr → Bool
  | [] => true
  | c :: _ => !(c = '*' || c = '+' || c = '?')

/-- The program's wildcard matching, end to end: translate the wildcard
pattern, compile it, and run `std::regex_search` on the candidate (`false`
if compilation failed, which `compilePattern_wildcard` rules out). -/
def wildcardCodeMatch (p : WStr) (pathMatch : Bool) (s : WStr) : Bool :=
  match compilePattern p false pathMatch with
  | none => false
  | some r => regexSearch r s

/-! ### File records and sorting -/

/-- `FileInfo`: path, both timestamps (seconds since the Unix epoch), and
size in bytes. -/
structure FileInfo where
  path : WStr
  creationTime : Int
  modificationTime : Int
  size : Nat
deriving DecidableEq, Repr

/-- Lexicographic comparison of wide strings (`std::wstring::operator<`):
the lexicographic strict order on character lists. -/
def lexLt (x y : WStr) : Bool := decide (x < y)

/-- The sort fields of the `SortField` enum. -/
inductive SortField : Type where
  | Path | Name | Size | CreationDate | ModificationDate
deriving DecidableEq, Repr

/-- A `(field, ascending)` pair, as in `struct SortOption`. -/
structure SortOption where
  field : SortField
  ascending : Bool
deriving DecidableEq, Repr

/-- The `switch` in `parseSortOptions` mapping a letter to a field. -/
def sortFieldOf (c : Char) : Option SortField :=
  if c = 'p' then some .Path
  else if c = 'n' then some .Name
  else if c = 's' then some .Size
  else if c = 'c' then some .CreationDate
  else if c = 'm' then some .ModificationDate
  else none

/-- The scanning loop of `parseSortOptions`: `-` turns the pending
direction to descending, a recognised field letter consumes the pending
direction and resets it to ascending, anything else is skipped. -/
def parseSortAux (ascending : Bool) : WStr → List SortOption
  | [] => []
  | c :: rest =>
      if c = '-' then parseSortAux false rest
      else
        match sortFieldOf c with
        | some f => ⟨f, ascending⟩ :: parseSortAux true rest
        | none => parseSortAux ascending rest

/-- `parseSortOptions`: parse the specification, defaulting to ascending
path when nothing was recognised. -/
def parseSortOptions (sortStr : WStr) : List SortOption :=
  let options := parseSortAux true sortStr
  if options = [] then [⟨.Path, true⟩] else options

/-- Substring after the last path separator, or the whole string if there
is none (the `Name` key of `sortFiles` and the filename of
`executeCommand`). -/
def baseNameAfterLastSlash (p : WStr) : WStr :=
  (p.reverse.takeWhile (fun c => !(c = '\\'))).reverse

/-- Everything before the last path separator (callers guard the
no-separator case). -/
def dirBeforeLastSlash (p : WStr) : WStr :=
  (p.reverse.dropWhile (fun c => !(c = '\\'))).reverse.dropLast

/-- One key comparison of the `sortFiles` comparator: the
`(result, equal)` pair its `switch` computes. -/
def cmpKey (o : SortOption) (a b : FileInfo) : Bool × Bool :=
  match o.field with
  | .Path => (lexLt a.path b.path, a.path == b.path)
  | .Name =>
      let aName := baseNameAfterLastSlash a.path
      let bName := baseNameAfterLastSlash b.path
      (lexLt aName bName, aName == bName)
  | .Size => (decide (a.size < b.size), a.size == b.size)
  | .CreationDate =>
      (decide (a.creationTime < b.creationTime),
        a.creationTime == b.creationTime)
  | .ModificationDate =>
      (decide (a.modificationTime < b.modificationTime),
        a.modificationTime == b.modificationTime)

/-- The `sortFiles` comparator: first key whose values differ decides (in
that key's direction); if every key ties, ascending path decides. -/
def fileLess (sortOptions : List SortOption) (a b : FileInfo) : Bool :=
  match sortOptions with
  | [] => lexLt a.path b.path
  | o :: rest =>
      let (result, equal) := cmpKey o a b
      if !equal then (if o.ascending then result else !result)
      else fileLess rest a b

/-- `sortFiles`: sort by the comparator.  `std::sort` guarantees exactly a
sorted permutation with respect to the strict comparator; the model
realises it with a (stable) merge sort under the associated non-strict
relation. -/
def sortFiles (files : List FileInfo) (sortOptions : List SortOption) :
    List FileInfo :=
  files.mergeSort (fun a b => !(fileLess sortOptions b a))

/-! ### Dates and the date filter -/

/-- A `struct tm` value as the program fills it in: `year` is offset from
1900 and `mon` is zero-based, exactly as in the C library. -/
structure Tm where
  sec : Int
  min : Int
  hour : Int
  mday : Int
  mon : Int
  year : Int
deriving DecidableEq, Repr

/-- Days since the Unix epoch of a proleptic-Gregorian civil date
(Howard Hinnant's `days_from_civil`, the standard algorithm used by C
libraries to implement `mktime`/`_mkgmtime`). -/
def daysFromCivil (y m d : Int) : Int :=
  let y' := if m ≤ 2 then y - 1 else y
  let era := (if 0 ≤ y' then y' else y' - 399) / 400
  let yoe := y' - era * 400
  let doy := (153 * (if 2 < m then m - 3 else m + 9) + 2) / 5 + d - 1
  let doe := yoe * 365 + yoe / 4 - yoe / 100 + doy
  era * 146097 + doe - 719468

/-- Seconds since the Unix epoch of a `tm`, reading its fields as a UTC
date-time. -/
def tmToSecondsUTC (t : Tm) : Int :=
  daysFromCivil (t.year + 1900) (t.mon + 1) t.mday * 86400 +
    t.hour * 3600 + t.min * 60 + t.sec

/-- `_mkgmtime`: the `tm` is interpreted as UTC. -/
def mkgmtime (t : Tm) : Int := tmToSecondsUTC t

/-- `mktime`: the `tm` is interpreted in the ambient local timezone,
`tzOffset` seconds east of UTC. -/
def mktime (tzOffset : Int) (t : Tm) : Int := tmToSecondsUTC t - tzOffset

/-- Numeric value of a digit string. -/
def digitsToInt (s : WStr) : Int :=
  Int.ofNat (s.foldl (fun acc c => acc * 10 + (c.toNat - 48)) 0)

/-- All characters are decimal digits. -/
def allDigits (s : WStr) : Bool := s.all Char.isDigit

/-- The six date formats `parseDateTime` accepts, tried exactly as its
regex table prescribes (the shapes have pairwise distinct lengths, so the
in-order test reduces to a shape dispatch), together with the `tm` it
fills in: year minus 1900, month minus 1, day, and optional time
fields. -/
def matchDateFormat (s : WStr) : Option Tm :=
  match s with
  | [y1, y2, y3, y4, m1, m2, d1, d2] =>
      if allDigits s then
        some ⟨0, 0, 0, digitsToInt [d1, d2], digitsToInt [m1, m2] - 1,
          digitsToInt [y1, y2, y3, y4] - 1900⟩
      else none
  | [y1, y2, y3, y4, m1, m2, d1, d2, h1, h2, n1, n2] =>
      if allDigits s then
        some ⟨0, digitsToInt [n1, n2], digitsToInt [h1, h2],
          digitsToInt [d1, d2], digitsToInt [m1, m2] - 1,
          digitsToInt [y1, y2, y3, y4] - 1900⟩
      else none
  | [y1, y2, y3, y4, m1, m2, d1, d2, h1, h2, n1, n2, s1, s2] =>
      if allDigits s then
        some ⟨digitsToInt [s1, s2], digitsToInt [n1, n2],
          digitsToInt [h1, h2], digitsToInt [d1, d2],
          digitsToInt [m1, m2] - 1, digitsToInt [y1, y2, y3, y4] - 1900⟩
      else none
  | [y1, y2, y3, y4, '/', m1, m2, '/', d1, d2] =>
      if allDigits [y1, y2, y3, y4, m1, m2, d1, d2] then
        some ⟨0, 0, 0, digitsToInt [d1, d2], digitsToInt [m1, m2] - 1,
          digitsToInt [y1, y2, y3, y4] - 1900⟩
      else none
  | [y1, y2, y3, y4, '/', m1, m2, '/', d1, d2, '-', h1, h2, ':', n1, n2] =>
      if allDigits [y1, y2, y3, y4, m1, m2, d1, d2, h1, h2, n1, n2] then
        some ⟨0, digitsToInt [n1, n2], digitsToInt [h1, h2],
          digitsToInt [d1, d2], digitsToInt [m1, m2] - 1,
          digitsToInt [y1, y2, y3, y4] - 1900⟩
      else none
  | [y1, y2, y3, y4, '/', m1, m2, '/', d1, d2, '-', h1, h2, ':', n1, n2,
      ':', s1, s2] =>
      if allDigits [y1, y2, y3, y4, m1, m2, d1, d2, h1, h2, n1, n2, s1, s2]
      then
        some ⟨digitsToInt [s1, s2], digitsToInt [n1, n2],
          digitsToInt [h1, h2], digitsToInt [d1, d2],
          digitsToInt [m1, m2] - 1, digitsToInt [y1, y2, y3, y4] - 1900⟩
      else none
  | _ => none

/-- `parseDateTime`: match one of the accepted formats, then convert with
`mktime` — i.e. in the ambient local timezone (`tzOffset` seconds east of
UTC) — returning `none` when `mktime` signals failure. -/
def parseDateTime (tzOffset : Int) (dateStr : WStr) : Option Int :=
  match matchDateFormat dateStr with
  | none => none
  | some t =>
      let tt := mktime tzOffset t
      if tt = -1 then none else some tt

/-- The per-record predicate of `filterFilesByDate` (its cascade of
`include = false` assignments). -/
def dateInclude (createdStart createdEnd modifiedStart modifiedEnd :
    Option Int) (file : FileInfo) : Bool :=
  (match createdStart with
   | none => true
   | some t => !decide (file.creationTime < t)) &&
  (match createdEnd with
   | none => true
   | some t => !decide (file.creationTime ≥ t)) &&
  (match modifiedStart with
   | none => true
   | some t => !decide (file.modificationTime < t)) &&
  (match modifiedEnd with
   | none => true
   | some t => !decide (file.modificationTime ≥ t))

/-- `filterFilesByDate`: keep, in order, the records passing every bound. -/
def filterFilesByDate (files : List FileInfo)
    (createdStart createdEnd modifiedStart modifiedEnd : Option Int) :
    List FileInfo :=
  files.filter (dateInclude createdStart createdEnd modifiedStart
    modifiedEnd)

/-! ### Traversal -/

/-- A `SYSTEMTIME` as produced by `FileTimeToSystemTime` (UTC calendar
fields). -/
structure SysTime where
  year : Int
  month : Int
  day : Int
  hour : Int
  minute : Int
  second : Int
deriving DecidableEq, Repr

/-- The `tm` initialiser `{wSecond, wMinute, wHour, wDay, wMonth - 1,
wYear - 1900}` used in `findFiles` for both timestamps. -/
def tmOfSystemTime (st : SysTime) : Tm :=
  ⟨st.second, st.minute, st.hour, st.day, st.month - 1, st.year - 1900⟩

/-- An abstract directory entry, as the enumeration provider yields it:
a regular file with its metadata snapshot, or a subdirectory with its own
entries. -/
inductive FSEntry : Type where
  | file (name : WStr) (stCreate stWrite : SysTime) (size : Nat) : FSEntry
  | dir (name : WStr) (entries : List FSEntry) : FSEntry
deriving Repr

/-- Path concatenation as `findFiles` performs it: append a separator
unless the directory is empty or already ends in one, then the name. -/
def joinPath (directory name : WStr) : WStr :=
  (if directory ≠ [] ∧ directory.getLast? ≠ some '\\'
   then directory ++ ['\\'] else directory) ++ name

/-- The `FileInfo` record `findFiles` builds for a matched file: both
timestamps go through `FileTimeToSystemTime` (UTC fields) and
`_mkgmtime` (UTC interpretation). -/
def mkFileInfo (fullPath : WStr) (stCreate stWrite : SysTime)
    (size : Nat) : FileInfo :=
  ⟨fullPath, mkgmtime (tmOfSystemTime stCreate),
    mkgmtime (tmOfSystemTime stWrite), size⟩

mutual
/-- Traversal over one directory entry (the body of the `do … while`
loop of `findFiles`): the `.`/`..` pseudo-entries are skipped,
subdirectories are recursed into unless `shallow`, and files are matched
via `std::regex_search` against the filename or the full path. -/
def findFilesEntry (regexPattern : CRegex) (shallow pathMatch : Bool)
    (directory : WStr) : FSEntry → List FileInfo
  | .file name stCreate stWrite size =>
      if name = ['.'] ∨ name = ['.', '.'] then []
      else
        let fullPath := joinPath directory name
        if regexSearch regexPattern (stringToMatch pathMatch name fullPath)
        then [mkFileInfo fullPath stCreate stWrite size]
        else []
  | .dir name entries =>
      if name = ['.'] ∨ name = ['.', '.'] then []
      else if !shallow then
        findFilesList regexPattern shallow pathMatch
          (joinPath directory name) entries
      else []

/-- Traversal over a directory's entry list, concatenating results in
enumeration order. -/
def findFilesList (regexPattern : CRegex) (shallow pathMatch : Bool)
    (directory : WStr) : List FSEntry → List FileInfo
  | [] => []
  | e :: es =>
      findFilesEntry regexPattern shallow pathMatch directory e ++
        findFilesList regexPattern shallow pathMatch directory es
end

/-- `FileFinder::findFiles` over an abstract filesystem: compile the
pattern (returning the empty result list from the `catch` branch when it
is invalid), then walk the tree.  The source recompiles the same pattern
at each recursive call with an identical outcome; the model compiles it
once. -/
def findFiles (directory : WStr) (entries : List FSEntry)
    (pattern : WStr) (useRegex shallow pathMatch : Bool) : List FileInfo :=
  match compilePattern pattern useRegex pathMatch with
  | none => []
  | some regexPattern =>
      findFilesList regexPattern shallow pathMatch directory entries

/-! ### Command templating and execution -/

/-- One pass of the `replacePlaceholder` lambda in `executeCommand`: scan
left to right for the two-character placeholder `p₁p₂`, replace each
occurrence with `qv`, and continue after the inserted text (the inserted
text is never rescanned by the same pass). -/
def replacePlaceholder (p₁ p₂ : Char) (qv : WStr) : WStr → WStr
  | [] => []
  | [c] => [c]
  | c₁ :: c₂ :: rest =>
      if c₁ = p₁ ∧ c₂ = p₂ then qv ++ replacePlaceholder p₁ p₂ qv rest
      else c₁ :: replacePlaceholder p₁ p₂ qv (c₂ :: rest)

/-- The `"..."` quoting applied to every substituted value. -/
def quoteStr (value : WStr) : WStr := '"' :: value ++ ['"']

/-- The rendering part of `executeCommand`: split the path at the last
separator (directory `"."` and the whole path as filename when there is
none), then substitute `%d`, `%n`, `%f` in that order. -/
def renderCommand (commandTemplate filePath : WStr) : WStr :=
  let directory :=
    if filePath.contains '\\' then dirBeforeLastSlash filePath else ['.']
  let filename := baseNameAfterLastSlash filePath
  let command₁ :=
    replacePlaceholder '%' 'd' (quoteStr directory) commandTemplate
  let command₂ := replacePlaceholder '%' 'n' (quoteStr filename) command₁
  replacePlaceholder '%' 'f' (quoteStr filePath) command₂

/-- Outcome of one `executeCommand` call: the boolean it returns, the
command lines actually handed to `CreateProcessW`, and the lines printed
to standard output. -/
structure ExecOutcome where
  ok : Bool
  spawned : List WStr
  printed : List WStr
deriving DecidableEq, Repr

/-- `executeCommand`, with process creation abstracted by the `spawnOk`
oracle: in dry-run mode nothing is spawned and `true` is returned; in
live mode the rendered command is spawned, awaited, and the return value
is exactly whether `CreateProcessW` succeeded (the child's exit status is
never inspected). -/
def executeCommand (spawnOk : WStr → Bool) (commandTemplate : WStr)
    (fileInfo : FileInfo) (dryRun debugMode : Bool) : ExecOutcome :=
  let command := renderCommand commandTemplate fileInfo.path
  if dryRun then
    { ok := true
      spawned := []
      printed := [if debugMode
        then fileInfo.path ++ (' ' :: '-' :: '>' :: ' ' :: command)
        else command] }
  else
    let success := spawnOk command
    { ok := success
      spawned := [command]
      printed :=
        if success then
          [if debugMode
           then fileInfo.path ++ (' ' :: '-' :: '>' :: ' ' :: command) ++
             (' ' :: '-' :: '>' :: ' ' :: 'o' :: 'k' :: [])
           else fileInfo.path ++ ('\t' :: '-' :: '>' :: ' ' :: 'o' :: 'k' :: [])]
        else [] }

/-- The command-execution phase of `main` (its loop over the results with
`anyCommandFailed` accumulation): every file is processed regardless of
earlier failures. -/
def runCommandPhase (spawnOk : WStr → Bool) (commandTemplate : WStr)
    (files : List FileInfo) (dryRun debugMode : Bool) : List ExecOutcome :=
  files.map (fun f => executeCommand spawnOk commandTemplate f dryRun
    debugMode)

/-- `main`'s exit status: `anyCommandFailed ? 1 : 0`.  Without a command
to execute, `anyCommandFailed` is never set and the program exits 0. -/
def mainExitCode (command : Option WStr) (spawnOk : WStr → Bool)
    (results : List FileInfo) (dryRun debugMode : Bool) : Nat :=
  match command with
  | none => 0
  | some commandTemplate =>
      if (runCommandPhase spawnOk commandTemplate results dryRun
          debugMode).any (fun o => !o.ok)
      then 1 else 0

/-! ### Theorems -/

/-- Inversion: nothing matches `empty`. -/
theorem Reg.Matches.empty_elim {s : WStr} (h : Reg.Matches .empty s) : False := by
  generalize hr : Reg.empty = r at h
  cases h <;> cases hr

/-- Inversion for `eps`. -/
theorem Reg.Matches.eps_elim {s : WStr} (h : Reg.Matches .eps s) : s = [] := by
  generalize hr : Reg.eps = r at h
  cases h <;> first | rfl | cases hr

/-- Inversion for `any`. -/
theorem Reg.Matches.any_elim {s : WStr} (h : Reg.Matches .any s) :
    ∃ c, s = [c] := by
  generalize hr : Reg.any = r at h
  cases h <;> first | exact ⟨_, rfl⟩ | cases hr

/-- Inversion for `lit`. -/
theorem Reg.Matches.lit_elim {p : Char} {s : WStr}
    (h : Reg.Matches (.lit p) s) :
    ∃ c, s = [c] ∧ charEqIcase p c = true := by
  generalize hr : Reg.lit p = r at h
  cases h with
  | lit hq => exact ⟨_, rfl, by cases hr; exact hq⟩
  | _ => cases hr

/-- Inversion for `seq`. -/
theorem Reg.Matches.seq_elim {a b : Reg} {u : WStr}
    (h : Reg.Matches (.seq a b) u) :
    ∃ s t, u = s ++ t ∧ Reg.Matches a s ∧ Reg.Matches b t := by
  generalize hr : Reg.seq a b = r at h
  cases h with
  | seq hs ht => cases hr; exact ⟨_, _, rfl, hs, ht⟩
  | _ => cases hr

/-- Inversion for `alt`. -/
theorem Reg.Matches.alt_elim {a b : Reg} {s : WStr}
    (h : Reg.Matches (.alt a b) s) :
    Reg.Matches a s ∨ Reg.Matches b s := by
  generalize hr : Reg.alt a b = r at h
  cases h with
  | altL h => cases hr; exact Or.inl h
  | altR h => cases hr; exact Or.inr h
  | _ => cases hr

theorem Reg.nullable_iff (r : Reg) : r.nullable = true ↔ r.Matches [] := by
  induction r with
  | empty =>
      constructor
      · intro h; exact Bool.noConfusion h
      · intro h; exact h.empty_elim.elim
  | eps =>
      constructor
      · intro _; exact .eps
      · intro _; rfl
  | any =>
      constructor
      · intro h; exact Bool.noConfusion h
      · intro h; obtain ⟨c, hc⟩ := h.any_elim; cases hc
  | lit p =>
      constructor
      · intro h; exact Bool.noConfusion h
      · intro h; obtain ⟨c, hc, _⟩ := h.lit_elim; cases hc
  | seq a b iha ihb =>
      simp only [Reg.nullable, Bool.and_eq_true, iha, ihb]
      constructor
      · rintro ⟨ha, hb⟩
        simpa using Reg.Matches.seq ha hb
      · intro h
        obtain ⟨s, t, heq, hs, ht⟩ := h.seq_elim
        cases s with
        | cons x xs => cases heq
        | nil =>
            simp only [List.nil_append] at heq
            subst heq
            exact ⟨hs, ht⟩
  | alt a b iha ihb =>
      simp only [Reg.nullable, Bool.or_eq_true, iha, ihb]
      constructor
      · rintro (h | h)
        · exact .altL h
        · exact .altR h
      · intro h
        exact h.alt_elim
  | star a ih =>
      simp only [Reg.nullable, true_iff]; exact .starNil

/-- Inversion of `Matches` on a `star` into a first nonempty chunk. -/
theorem Reg.Matches.star_elim {a : Reg} {s : WStr}
    (h : Reg.Matches (.star a) s) :
    s = [] ∨ ∃ c s₁ s₂, s = (c :: s₁) ++ s₂ ∧
      Reg.Matches a (c :: s₁) ∧ Reg.Matches (.star a) s₂ := by
  generalize hr : Reg.star a = r at h
  induction h with
  | eps => cases hr
  | any => cases hr
  | lit _ => cases hr
  | seq _ _ => cases hr
  | altL _ => cases hr
  | altR _ => cases hr
  | starNil => exact Or.inl rfl
  | starCons hs ht ihs iht =>
      cases hr
      rename_i s' t'
      cases s' with
      | nil => simpa using iht rfl
      | cons c cs =>
          exact Or.inr ⟨c, cs, t', rfl, hs, ht⟩

/-- Soundness and completeness of the derivative: `r.deriv c` matches `s`
exactly when `r` matches `c :: s`. -/
theorem Reg.deriv_iff (r : Reg) (c : Char) (s : WStr) :
    (r.deriv c).Matches s ↔ r.Matches (c :: s) := by
  induction r generalizing s with
  | empty =>
      simp only [Reg.deriv]
      exact ⟨fun h => absurd h.empty_elim (by simp),
             fun h => absurd h.empty_elim (by simp)⟩
  | eps =>
      simp only [Reg.deriv]
      constructor
      · intro h; exact absurd h.empty_elim (by simp)
      · intro h; cases h.eps_elim
  | any =>
      simp only [Reg.deriv]
      constructor
      · intro h; rw [h.eps_elim]; exact .any c
      · intro h
        obtain ⟨d, hd⟩ := h.any_elim
        injection hd with _ h2
        rw [h2]; exact .eps
  | lit p =>
      simp only [Reg.deriv]
      by_cases hp : charEqIcase p c = true
      · simp only [hp, if_true]
        constructor
        · intro h; rw [h.eps_elim]; exact .lit hp
        · intro h
          obtain ⟨d, hd, _⟩ := h.lit_elim
          injection hd with _ h2
          rw [h2]; exact .eps
      · simp only [hp, if_false]
        constructor
        · intro h; exact absurd h.empty_elim (by simp)
        · intro h
          obtain ⟨d, hd, hq⟩ := h.lit_elim
          injection hd with h1 _
          exact absurd (h1 ▸ hq) hp
  | seq a b iha ihb =>
      simp only [Reg.deriv]
      by_cases hn : a.nullable
      · simp only [hn, if_true]
        constructor
        · intro h
          rcases h.alt_elim with h | h
          · obtain ⟨s₁, s₂, heq, hs, ht⟩ := h.seq_elim
            subst heq
            simpa using Reg.Matches.seq ((iha s₁).mp hs) ht
          · have ha0 : a.Matches [] := (Reg.nullable_iff a).mp hn
            simpa using Reg.Matches.seq ha0 ((ihb s).mp h)
        · intro h
          obtain ⟨s₁, s₂, heq, hs, ht⟩ := h.seq_elim
          cases s₁ with
          | nil =>
              simp only [List.nil_append] at heq
              subst heq
              exact .altR ((ihb s).mpr ht)
          | cons x xs =>
              injection heq with h1 h2
              subst h1
              subst h2
              exact .altL (Reg.Matches.seq ((iha xs).mpr hs) ht)
      · simp only [hn, if_false]
        constructor
        · intro h
          obtain ⟨s₁, s₂, heq, hs, ht⟩ := h.seq_elim
          subst heq
          simpa using Reg.Matches.seq ((iha s₁).mp hs) ht
        · intro h
          obtain ⟨s₁, s₂, heq, hs, ht⟩ := h.seq_elim
          cases s₁ with
          | nil =>
              exact absurd ((Reg.nullable_iff a).mpr hs) (by simp [hn])
          | cons x xs =>
              injection heq with h1 h2
              subst h1
              subst h2
              exact Reg.Matches.seq ((iha xs).mpr hs) ht
  | alt a b iha ihb =>
      simp only [Reg.deriv]
      constructor
      · intro h
        rcases h.alt_elim with h | h
        · exact .altL ((iha s).mp h)
        · exact .altR ((ihb s).mp h)
      · intro h
        rcases h.alt_elim with h | h
        · exact .altL ((iha s).mpr h)
        · exact .altR ((ihb s).mpr h)
  | star a ih =>
      simp only [Reg.deriv]
      constructor
      · intro h
        obtain ⟨s₁, s₂, heq, hs, ht⟩ := h.seq_elim
        subst heq
        simpa using Reg.Matches.starCons (a := a)
          (s := c :: s₁) ((ih s₁).mp hs) ht
      · intro h
        rcases h.star_elim with h0 | ⟨d, s₁, s₂, heq, h₁, h₂⟩
        · cases h0
        · injection heq with h1 h2
          subst h1
          subst h2
          exact Reg.Matches.seq ((ih s₁).mpr h₁) h₂

/-- The executable matcher agrees with the declarative semantics. -/
theorem Reg.accepts_iff (r : Reg) (s : WStr) :
    r.accepts s = true ↔ r.Matches s := by
  induction s generalizing r with
  | nil => simpa [Reg.accepts] using Reg.nullable_iff r
  | cons c cs ih =>
      simpa [Reg.accepts, List.foldl_cons] using
        (ih (r.deriv c)).trans (Reg.deriv_iff r c cs)

theorem parseAtom_length {s rest : WStr} {a : Reg}
    (h : parseAtom s = some (a, rest)) : rest.length < s.length := by
  unfold parseAtom at h
  split at h
  · cases h
  · simp only [Option.some.injEq, Prod.mk.injEq] at h
    obtain ⟨-, h2⟩ := h
    subst h2
    simp only [List.length_cons]
    omega
  · simp only [Option.some.injEq, Prod.mk.injEq] at h
    obtain ⟨-, h2⟩ := h
    subst h2
    simp only [List.length_cons]
    omega
  · cases h
  · split at h
    · cases h
    · simp only [Option.some.injEq, Prod.mk.injEq] at h
      obtain ⟨-, h2⟩ := h
      subst h2
      simp only [List.length_cons]
      omega

theorem parseTerm_length {s rest : WStr} {a : Reg}
    (h : parseTerm s = some (a, rest)) : rest.length < s.length := by
  unfold parseTerm at h
  split at h
  · cases h
  · rename_i a' rest' heq
    have hlt := parseAtom_length heq
    split at h <;>
      · simp only [Option.some.injEq, Prod.mk.injEq] at h
        obtain ⟨-, h2⟩ := h
        subst h2
        simp only [List.length_cons] at *
        omega

/-- With enough fuel, `parseBodyFuel` does not depend on the exact fuel. -/
theorem parseBodyFuel_congr :
    ∀ (f₁ f₂ : Nat) (s : WStr), s.length ≤ f₁ → s.length ≤ f₂ →
      parseBodyFuel f₁ s = parseBodyFuel f₂ s := by
  intro f₁
  induction f₁ with
  | zero =>
      intro f₂ s h₁ h₂
      cases s with
      | nil => cases f₂ <;> rfl
      | cons c rest => simp at h₁
  | succ f ih =>
      intro f₂ s h₁ h₂
      cases s with
      | nil => cases f₂ <;> rfl
      | cons c rest =>
          cases f₂ with
          | zero => simp at h₂
          | succ f₂' =>
              simp only [parseBodyFuel]
              by_cases hg : c = '$' ∧ rest = []
              · rw [if_pos hg, if_pos hg]
              · rw [if_neg hg, if_neg hg]
                cases hp : parseTerm (c :: rest) with
                | none => rfl
                | some ar =>
                    obtain ⟨a, r⟩ := ar
                    have hr := parseTerm_length hp
                    simp only [List.length_cons] at hr h₁ h₂
                    dsimp only
                    rw [ih f₂' r (by omega) (by omega)]

theorem parseBody_nil : parseBody [] = some (.eps, false) := rfl

/-- One-step unfolding of `parseBody` on a nonempty input. -/
theorem parseBody_cons (c : Char) (rest : WStr) :
    parseBody (c :: rest) =
      (if c = '$' ∧ rest = [] then some (.eps, true)
       else
        match parseTerm (c :: rest) with
        | none => none
        | some (a, r) =>
            match parseBody r with
            | none => none
            | some (b, e) => some (.seq a b, e)) := by
  show parseBodyFuel (c :: rest).length (c :: rest) = _
  simp only [List.length_cons, parseBodyFuel]
  by_cases hg : c = '$' ∧ rest = []
  · rw [if_pos hg, if_pos hg]
  · rw [if_neg hg, if_neg hg]
    cases hp : parseTerm (c :: rest) with
    | none => rfl
    | some ar =>
        obtain ⟨a, r⟩ := ar
        have hr := parseTerm_length hp
        simp only [List.length_cons] at hr
        dsimp only
        rw [parseBodyFuel_congr rest.length r.length r (by omega) (by omega)]
        rfl

theorem wildAtom_star : wildAtom '*' = .star .any := rfl

theorem wildAtom_any : wildAtom '?' = .any := rfl

theorem wildAtom_lit {c : Char} (h1 : ¬c = '*') (h2 : ¬c = '?') :
    wildAtom c = .lit c := by
  simp [wildAtom, h1, h2]

/-- `star any` matches every string. -/
theorem star_any_matches (s : WStr) : Reg.Matches (.star .any) s := by
  induction s with
  | nil => exact .starNil
  | cons c cs ih =>
      exact Reg.Matches.starCons (s := [c]) (.any c) ih

/-- The translated regex means exactly what the spec's wildcard semantics
says. -/
theorem regOfWild_matches_iff (p s : WStr) :
    (regOfWild p).Matches s ↔ wildSpecMatch p s = true := by
  induction p, s using wildSpecMatch.induct with
  | case1 =>
      rw [wildSpecMatch.eq_1]
      constructor
      · intro _; rfl
      · intro _; exact .eps
  | case2 d s' =>
      rw [wildSpecMatch.eq_2]
      constructor
      · intro h; cases h.eps_elim
      · intro h; exact Bool.noConfusion h
  | case3 p s ih1 ih2 =>
      simp only [regOfWild, wildAtom_star]
      constructor
      · intro h
        obtain ⟨s₁, s₂, heq, hs, ht⟩ := h.seq_elim
        subst heq
        cases s₁ with
        | nil =>
            simp only [List.nil_append] at ih1 ⊢
            cases s₂ with
            | nil =>
                rw [wildSpecMatch.eq_3]
                simp only [Bool.or_false]
                exact ih1.mp ht
            | cons d s' =>
                rw [wildSpecMatch.eq_4]
                simp only [Bool.or_eq_true]
                exact Or.inl (ih1.mp ht)
        | cons c cs =>
            simp only [List.cons_append] at ih1 ih2 ⊢
            rw [wildSpecMatch.eq_4]
            simp only [Bool.or_eq_true]
            refine Or.inr ?_
            have hmatch : Reg.Matches (.seq (.star .any) (regOfWild p))
                (cs ++ s₂) :=
              Reg.Matches.seq (star_any_matches cs) ht
            simp only [regOfWild, wildAtom_star] at ih2
            exact ih2.mp hmatch
      · intro h
        cases s with
        | nil =>
            rw [wildSpecMatch.eq_3] at h
            simp only [Bool.or_false] at h
            simpa using Reg.Matches.seq (Reg.Matches.starNil (a := .any))
              (ih1.mpr h)
        | cons d s' =>
            rw [wildSpecMatch.eq_4] at h
            simp only [Bool.or_eq_true] at h
            rcases h with h | h
            · simpa using Reg.Matches.seq (Reg.Matches.starNil (a := .any))
                (ih1.mpr h)
            · simp only [regOfWild, wildAtom_star] at ih2
              obtain ⟨s₁, s₂, heq, h1, h2⟩ := (ih2.mpr h).seq_elim
              subst heq
              exact Reg.Matches.seq (s := d :: s₁)
                (star_any_matches (d :: s₁)) h2
  | case4 p =>
      rw [wildSpecMatch.eq_5]
      simp only [regOfWild, wildAtom_any]
      constructor
      · intro h
        obtain ⟨s₁, s₂, heq, hs, ht⟩ := h.seq_elim
        obtain ⟨c, hc⟩ := hs.any_elim
        subst hc
        cases heq
      · intro h; exact Bool.noConfusion h
  | case5 p d s' ih =>
      rw [wildSpecMatch.eq_6]
      simp only [regOfWild, wildAtom_any]
      constructor
      · intro h
        obtain ⟨s₁, s₂, heq, hs, ht⟩ := h.seq_elim
        obtain ⟨c, hc⟩ := hs.any_elim
        subst hc
        injection heq with h1 h2
        subst h2
        exact ih.mp ht
      · intro h
        exact Reg.Matches.seq (s := [d]) (.any d) (ih.mpr h)
  | case6 c p hne1 hne2 =>
      rw [wildSpecMatch.eq_7 c p hne1 hne2]
      simp only [regOfWild, wildAtom_lit hne1 hne2]
      constructor
      · intro h
        obtain ⟨s₁, s₂, heq, hs, ht⟩ := h.seq_elim
        obtain ⟨d, hd, hcd⟩ := hs.lit_elim
        subst hd
        cases heq
      · intro h; exact Bool.noConfusion h
  | case7 c p hne1 hne2 d s' ih =>
      rw [wildSpecMatch.eq_8 c p d s' hne1 hne2]
      simp only [regOfWild, wildAtom_lit hne1 hne2]
      constructor
      · intro h
        obtain ⟨s₁, s₂, heq, hs, ht⟩ := h.seq_elim
        obtain ⟨e, he, hce⟩ := hs.lit_elim
        subst he
        injection heq with hh1 hh2
        subst hh1
        subst hh2
        simp only [Bool.and_eq_true]
        exact ⟨hce, ih.mp ht⟩
      · intro h
        simp only [Bool.and_eq_true] at h
        exact Reg.Matches.seq (s := [d]) (.lit h.1) (ih.mpr h.2)

theorem isDosEscapedChar_ne_star {c : Char} (h : isDosEscapedChar c = true) :
    ¬c = '*' := by
  intro he; subst he; simp [isDosEscapedChar] at h

theorem isDosEscapedChar_ne_q {c : Char} (h : isDosEscapedChar c = true) :
    ¬c = '?' := by
  intro he; subst he; simp [isDosEscapedChar] at h

/-- Every single-character translation starts with a character that is
neither an anchor nor a quantifier. -/
theorem dosCharToRegex_head (c : Char) :
    ∃ d t, dosCharToRegex c = d :: t ∧ ¬d = '$' ∧ ¬d = '^' ∧
      ¬d = '*' ∧ ¬d = '+' ∧ ¬d = '?' := by
  by_cases h1 : c = '*'
  · subst h1
    exact ⟨'.', ['*'], rfl, by decide, by decide, by decide, by decide,
      by decide⟩
  · by_cases h2 : c = '?'
    · subst h2
      exact ⟨'.', [], rfl, by decide, by decide, by decide, by decide,
        by decide⟩
    · by_cases h3 : isDosEscapedChar c
      · refine ⟨'\\', [c], ?_, by decide, by decide, by decide, by decide,
          by decide⟩
        simp [dosCharToRegex, h1, h2, h3]
      · refine ⟨c, [], ?_, ?_, ?_, h1, ?_, h2⟩
        · simp [dosCharToRegex, h1, h2, h3]
        · intro he; subst he; simp [isDosEscapedChar] at h3
        · intro he; subst he; simp [isDosEscapedChar] at h3
        · intro he; subst he; simp [isDosEscapedChar] at h3

/-- `parseAtom` on a non-metacharacter literal. -/
theorem parseAtom_nonmeta {c : Char} (h : isRegexMeta c = false)
    (rest : WStr) : parseAtom (c :: rest) = some (.lit c, rest) := by
  have hdot : ¬c = '.' := by
    intro he; subst he; simp [isRegexMeta] at h
  have hbs : ¬c = '\\' := by
    intro he; subst he; simp [isRegexMeta] at h
  unfold parseAtom
  split
  · rename_i heq; cases heq
  · rename_i heq
    injection heq with he _
    exact absurd he hdot
  · rename_i heq
    injection heq with he _
    exact absurd he hbs
  · rename_i heq
    injection heq with he _
    exact absurd he hbs
  · rename_i c' rest' hne1 hne2 hne3 heq
    injection heq with he1 he2
    subst he1
    subst he2
    rw [h]
    rfl

/-- `parseTerm` keeps exactly a parsed atom when no quantifier follows. -/
theorem parseTerm_of_parseAtom {s rest : WStr} {a : Reg}
    (h : parseAtom s = some (a, rest)) (hok : headOK rest = true) :
    parseTerm s = some (a, rest) := by
  unfold parseTerm
  rw [h]
  cases rest with
  | nil => rfl
  | cons r rs =>
      simp only [headOK, Bool.not_eq_eq_eq_not, Bool.not_true,
        Bool.or_eq_false_iff] at hok
      dsimp only
      split
      · rename_i heq
        injection heq with he _
        simp [he] at hok
      · rename_i heq
        injection heq with he _
        simp [he] at hok
      · rename_i heq
        injection heq with he _
        simp [he] at hok
      · rfl

/-- Parsing one translated wildcard character yields its atom and leaves
the rest untouched (when the rest does not begin with a quantifier). -/
theorem parseTerm_frag (c : Char) (rest : WStr) (hok : headOK rest = true) :
    parseTerm (dosCharToRegex c ++ rest) = some (wildAtom c, rest) := by
  by_cases h1 : c = '*'
  · subst h1
    rfl
  · by_cases h2 : c = '?'
    · subst h2
      have hatom : parseAtom ('.' :: rest) = some (.any, rest) := rfl
      have := parseTerm_of_parseAtom hatom hok
      simpa [dosCharToRegex, wildAtom] using this
    · by_cases h3 : isDosEscapedChar c
      · have hfrag : dosCharToRegex c = ['\\', c] := by
          simp [dosCharToRegex, h1, h2, h3]
        have hatom : parseAtom ('\\' :: c :: rest) = some (.lit c, rest) :=
          rfl
        have := parseTerm_of_parseAtom hatom hok
        rw [hfrag]
        simpa [wildAtom_lit h1 h2] using this
      · have hfrag : dosCharToRegex c = [c] := by
          simp [dosCharToRegex, h1, h2, h3]
        have hmeta : isRegexMeta c = false := by
          have h3' : isDosEscapedChar c = false := by simpa using h3
          simp only [isDosEscapedChar, Bool.or_eq_false_iff,
            decide_eq_false_iff_not] at h3'
          simp only [isRegexMeta, Bool.or_eq_false_iff,
            decide_eq_false_iff_not]
          tauto
        have hatom := parseAtom_nonmeta hmeta rest
        have := parseTerm_of_parseAtom hatom hok
        rw [hfrag]
        simpa [wildAtom_lit h1 h2] using this

/-- The translation of a wildcard pattern (plus an optional trailing
anchor) never starts with a quantifier. -/
theorem headOK_translation (p : WStr) (tail : WStr)
    (htail : tail = [] ∨ tail = ['$']) :
    headOK (p.flatMap dosCharToRegex ++ tail) = true := by
  cases p with
  | nil =>
      rcases htail with h | h <;> subst h <;> rfl
  | cons c p' =>
      obtain ⟨d, t, hfrag, hd1, hd2, hd3, hd4, hd5⟩ := dosCharToRegex_head c
      simp only [List.flatMap_cons, hfrag, List.cons_append, List.append_assoc]
      simp only [headOK, Bool.not_eq_eq_eq_not, Bool.not_true,
        Bool.or_eq_false_iff, decide_eq_false_iff_not]
      exact ⟨⟨hd3, hd4⟩, hd5⟩

/-- Parsing the translated body of a wildcard pattern yields `regOfWild`,
with the end-anchor flag read off the optional trailing `$`. -/
theorem parseBody_translation (p : WStr) (e : Bool) :
    parseBody (p.flatMap dosCharToRegex ++ (if e then ['$'] else [])) =
      some (regOfWild p, e) := by
  induction p with
  | nil =>
      cases e
      · rfl
      · rfl
  | cons c p' ih =>
      obtain ⟨d, t, hfrag, hd1, hd2, hd3, hd4, hd5⟩ := dosCharToRegex_head c
      have hok : headOK (p'.flatMap dosCharToRegex ++
          (if e then ['$'] else [])) = true := by
        apply headOK_translation
        cases e
        · exact Or.inl rfl
        · exact Or.inr rfl
      have hterm : parseTerm (dosCharToRegex c ++
          (p'.flatMap dosCharToRegex ++ (if e then ['$'] else []))) =
          some (wildAtom c, p'.flatMap dosCharToRegex ++
            (if e then ['$'] else [])) :=
        parseTerm_frag c _ hok
      simp only [List.flatMap_cons, List.append_assoc]
      rw [hfrag] at hterm ⊢
      simp only [List.cons_append] at hterm ⊢
      rw [parseBody_cons]
      have hguard : ¬(d = '$' ∧ t ++ (p'.flatMap dosCharToRegex ++
          (if e then ['$'] else [])) = []) := by
        intro ⟨h, _⟩
        exact hd1 h
      rw [if_neg hguard, hterm]
      dsimp only
      rw [ih]
      rfl

/-- Compiling a wildcard pattern always succeeds and produces the
`regOfWild` body, anchored at both ends exactly when `pathMatch` is
false. -/
theorem compilePattern_wildcard (p : WStr) (pm : Bool) :
    compilePattern p false pm = some ⟨!pm, regOfWild p, !pm⟩ := by
  cases pm with
  | false =>
      show parseRegex (dosPatternToRegex p false) = _
      have hbody : parseBody (p.flatMap dosCharToRegex ++ ['$']) =
          some (regOfWild p, true) := by
        simpa using parseBody_translation p true
      have htr : dosPatternToRegex p false =
          '^' :: (p.flatMap dosCharToRegex ++ ['$']) := by
        simp [dosPatternToRegex]
      rw [htr]
      simp only [parseRegex, if_pos rfl, hbody, Option.map_some]
      rfl
  | true =>
      show parseRegex (dosPatternToRegex p true) = _
      have hbody : parseBody (p.flatMap dosCharToRegex) =
          some (regOfWild p, false) := by
        simpa using parseBody_translation p false
      have htr : dosPatternToRegex p true = p.flatMap dosCharToRegex := by
        simp [dosPatternToRegex]
      rw [htr]
      cases hp : p with
      | nil => rfl
      | cons c p' =>
          obtain ⟨d, t, hfrag, hd1, hd2, hd3, hd4, hd5⟩ :=
            dosCharToRegex_head c
          subst hp
          rw [List.flatMap_cons, hfrag] at hbody ⊢
          simp only [List.cons_append] at hbody ⊢
          simp only [parseRegex, if_neg hd2, hbody, Option.map_some]
          rfl

/-- ASCII lower-casing is idempotent. -/
theorem toLower_idem (c : Char) : c.toLower.toLower = c.toLower := by
  unfold Char.toLower
  simp only
  by_cases h : c.toNat ≥ 65 ∧ c.toNat ≤ 90
  · rw [if_pos h]
    have hvalid : (c.toNat + 32).isValidChar := by
      left
      omega
    have hv : (Char.ofNat (c.toNat + 32)).toNat = c.toNat + 32 := by
      rw [Char.ofNat, dif_pos hvalid]
      rfl
    rw [hv]
    have hno : ¬(c.toNat + 32 ≥ 65 ∧ c.toNat + 32 ≤ 90) := by omega
    rw [if_neg hno]
  · rw [if_neg h, if_neg h]

theorem charEqIcase_toLower (p c : Char) :
    charEqIcase p c.toLower = charEqIcase p c := by
  simp only [charEqIcase, toLower_idem]

theorem deriv_toLower (r : Reg) (c : Char) :
    r.deriv c.toLower = r.deriv c := by
  induction r with
  | empty => rfl
  | eps => rfl
  | any => rfl
  | lit p => simp only [Reg.deriv, charEqIcase_toLower]
  | seq a b iha ihb => simp only [Reg.deriv, iha, ihb]
  | alt a b iha ihb => simp only [Reg.deriv, iha, ihb]
  | star a ih => simp only [Reg.deriv, ih]

/-- Lower-casing the subject does not change acceptance: matching is
case-insensitive. -/
theorem accepts_map_toLower (r : Reg) (s : WStr) :
    r.accepts (s.map Char.toLower) = r.accepts s := by
  induction s generalizing r with
  | nil => rfl
  | cons c cs ih =>
      show (Reg.deriv r c.toLower).accepts (cs.map Char.toLower) =
        (Reg.deriv r c).accepts cs
      rw [deriv_toLower, ih]

/-- `std::regex_search` with `icase` is insensitive to the case of the
candidate string. -/
theorem regexSearch_map_toLower (r : CRegex) (s : WStr) :
    regexSearch r (s.map Char.toLower) = regexSearch r s := by
  unfold regexSearch
  cases r with
  | mk aS b aE =>
      cases aS <;> cases aE <;>
        simp only [List.length_map, ← List.map_take, ← List.map_drop,
          accepts_map_toLower]

/-- A pattern anchored at both ends searches as an entire-string match. -/
theorem regexSearch_anchored (b : Reg) (s : WStr) :
    regexSearch ⟨true, b, true⟩ s = b.accepts s := rfl

/-- An unanchored pattern searches as a substring match. -/
theorem regexSearch_unanchored_iff (b : Reg) (s : WStr) :
    regexSearch ⟨false, b, false⟩ s = true ↔
      ∃ u v w, s = u ++ v ++ w ∧ b.accepts v = true := by
  simp only [regexSearch, List.any_eq_true, List.mem_range]
  constructor
  · rintro ⟨i, hi, n, hn, hacc⟩
    refine ⟨s.take i, (s.drop i).take n, (s.drop i).drop n, ?_, hacc⟩
    rw [List.append_assoc, List.take_append_drop, List.take_append_drop]
  · rintro ⟨u, v, w, heq, hacc⟩
    subst heq
    refine ⟨u.length, ?_, v.length, ?_, ?_⟩
    · simp only [List.length_append]
      omega
    · simp only [List.length_append]
      omega
    · have hdrop : (u ++ v ++ w).drop u.length = v ++ w := by
        rw [List.append_assoc, List.drop_left]
      rw [hdrop, List.take_left]
      exact hacc

/-- In filename mode the program's wildcard match is exactly the spec's
entire-string wildcard semantics. -/
theorem wildcardCodeMatch_name (p s : WStr) :
    wildcardCodeMatch p false s = wildSpecMatch p s := by
  unfold wildcardCodeMatch
  rw [compilePattern_wildcard]
  show regexSearch ⟨true, regOfWild p, true⟩ s = _
  rw [regexSearch_anchored]
  rw [Bool.eq_iff_iff]
  exact (Reg.accepts_iff _ _).trans (regOfWild_matches_iff p s)

/-- In path mode the program's wildcard match is a substring test. -/
theorem wildcardCodeMatch_path_iff (p s : WStr) :
    wildcardCodeMatch p true s = true ↔
      ∃ u v w, s = u ++ v ++ w ∧ wildSpecMatch p v = true := by
  unfold wildcardCodeMatch
  rw [compilePattern_wildcard]
  show regexSearch ⟨false, regOfWild p, false⟩ s = true ↔ _
  rw [regexSearch_unanchored_iff]
  constructor
  · rintro ⟨u, v, w, heq, hacc⟩
    exact ⟨u, v, w, heq,
      (regOfWild_matches_iff p v).mp ((Reg.accepts_iff _ _).mp hacc)⟩
  · rintro ⟨u, v, w, heq, hm⟩
    exact ⟨u, v, w, heq,
      (Reg.accepts_iff _ _).mpr ((regOfWild_matches_iff p v).mpr hm)⟩

/-! ### Order-theoretic facts about the sort comparator -/

theorem beqComm {α : Type} [BEq α] [LawfulBEq α] (a b : α) :
    (a == b) = (b == a) := by
  rw [Bool.eq_iff_iff]
  constructor
  · intro h; exact beq_iff_eq.mpr (beq_iff_eq.mp h).symm
  · intro h; exact beq_iff_eq.mpr (beq_iff_eq.mp h).symm

theorem decideLt_asym_of_ne {α : Type} [LinearOrder α] {a b : α}
    (h : ¬a = b) : decide (a < b) = !decide (b < a) := by
  by_cases hlt : a < b
  · simp [hlt, lt_asymm hlt]
  · have hgt : b < a := by
      rcases lt_or_gt_of_ne h with h' | h'
      · exact absurd h' hlt
      · exact h'
    simp [hlt, hgt]

theorem cmpKey_snd_symm (o : SortOption) (a b : FileInfo) :
    (cmpKey o a b).2 = (cmpKey o b a).2 := by
  rcases o with ⟨f, asc⟩
  cases f <;> simp only [cmpKey] <;> exact beqComm _ _

theorem cmpKey_snd_refl (o : SortOption) (a : FileInfo) :
    (cmpKey o a a).2 = true := by
  rcases o with ⟨f, asc⟩
  cases f <;> simp [cmpKey]

theorem cmpKey_congr_left {o : SortOption} {a b : FileInfo}
    (c : FileInfo) (h : (cmpKey o a b).2 = true) :
    cmpKey o a c = cmpKey o b c := by
  rcases o with ⟨f, asc⟩
  cases f <;> simp only [cmpKey] at h ⊢ <;> rw [eq_of_beq h]

theorem cmpKey_congr_right {o : SortOption} {b c : FileInfo}
    (a : FileInfo) (h : (cmpKey o b c).2 = true) :
    cmpKey o a b = cmpKey o a c := by
  rcases o with ⟨f, asc⟩
  cases f <;> simp only [cmpKey] at h ⊢ <;> rw [eq_of_beq h]

theorem cmpKey_fst_asym {o : SortOption} {a b : FileInfo}
    (h : (cmpKey o a b).2 = false) :
    (cmpKey o a b).1 = !(cmpKey o b a).1 := by
  rcases o with ⟨f, asc⟩
  cases f <;> simp only [cmpKey, lexLt] at h ⊢ <;>
    exact decideLt_asym_of_ne (by simpa using h)

theorem cmpKey_fst_trans {o : SortOption} {a b c : FileInfo}
    (h₁ : (cmpKey o a b).1 = true) (h₂ : (cmpKey o b c).1 = true) :
    (cmpKey o a c).1 = true := by
  rcases o with ⟨f, asc⟩
  cases f <;> simp only [cmpKey, lexLt, decide_eq_true_eq] at h₁ h₂ ⊢ <;>
    exact lt_trans h₁ h₂

theorem cmpKey_snd_false_of_fst {o : SortOption} {a b : FileInfo}
    (h : (cmpKey o a b).1 = true) : (cmpKey o a b).2 = false := by
  rcases o with ⟨f, asc⟩
  cases f <;> simp only [cmpKey, lexLt, decide_eq_true_eq] at h ⊢ <;>
    simpa using ne_of_lt h

theorem fileLess_asym :
    ∀ (opts : List SortOption) (a b : FileInfo),
      fileLess opts a b = true → fileLess opts b a = false := by
  intro opts
  induction opts with
  | nil =>
      intro a b h
      simp only [fileLess, lexLt, decide_eq_true_eq] at h ⊢
      simpa using lt_asymm h
  | cons o rest ih =>
      intro a b h
      rcases hab : cmpKey o a b with ⟨rab, eab⟩
      rcases hba : cmpKey o b a with ⟨rba, eba⟩
      have hsy : eab = eba := by
        have := cmpKey_snd_symm o a b
        rw [hab, hba] at this
        exact this
      simp only [fileLess, hab, hba] at h ⊢
      cases eab with
      | true =>
          rw [← hsy]
          simp only [Bool.not_true, Bool.false_eq_true, if_neg, ite_false] at h ⊢
          exact ih a b h
      | false =>
          rw [← hsy]
          have hasym := cmpKey_fst_asym (a := a) (b := b) (o := o)
            (by rw [hab])
          rw [hab, hba] at hasym
          simp only at hasym
          subst hasym
          simp only [Bool.not_false, if_true] at h ⊢
          cases asc : o.ascending <;> rw [asc] at h <;>
            simp_all

theorem fileLess_negTrans :
    ∀ (opts : List SortOption) (a b c : FileInfo),
      fileLess opts a b = false → fileLess opts b c = false →
      fileLess opts a c = false := by
  intro opts
  induction opts with
  | nil =>
      intro a b c h₁ h₂
      simp only [fileLess, lexLt, decide_eq_false_iff_not, not_lt] at h₁ h₂ ⊢
      exact le_trans h₂ h₁
  | cons o rest ih =>
      intro a b c h₁ h₂
      rcases hab : cmpKey o a b with ⟨rab, eab⟩
      rcases hbc : cmpKey o b c with ⟨rbc, ebc⟩
      simp only [fileLess, hab, hbc] at h₁ h₂
      cases eab with
      | true =>
          have hcg := cmpKey_congr_left (o := o) (a := a) (b := b) c
            (by rw [hab])
          simp only [fileLess, hcg, hbc]
          cases ebc with
          | true =>
              simp only [Bool.not_true, Bool.false_eq_true, ite_false] at h₁ h₂ ⊢
              exact ih a b c h₁ h₂
          | false =>
              simpa using h₂
      | false =>
          cases ebc with
          | true =>
              have hcg := cmpKey_congr_right (o := o) (b := b) (c := c) a
                (by rw [hbc])
              simp only [fileLess, ← hcg, hab]
              simpa using h₁
          | false =>
              simp only [Bool.not_false, if_true] at h₁ h₂
              have hasymab := cmpKey_fst_asym (o := o) (a := a) (b := b)
                (by rw [hab])
              have hasymbc := cmpKey_fst_asym (o := o) (a := b) (b := c)
                (by rw [hbc])
              rw [hab] at hasymab
              rw [hbc] at hasymbc
              simp only at hasymab hasymbc
              cases asc : o.ascending <;> rw [asc] at h₁ h₂ <;>
                simp only [if_pos, if_neg, Bool.false_eq_true, ite_false,
                  ite_true, Bool.not_eq_false'] at h₁ h₂
              · -- descending: rab and rbc are true
                have hac : (cmpKey o a c).1 = true :=
                  cmpKey_fst_trans (b := b) (by rw [hab]; exact h₁)
                    (by rw [hbc]; exact h₂)
                have heac : (cmpKey o a c).2 = false :=
                  cmpKey_snd_false_of_fst hac
                rcases hacp : cmpKey o a c with ⟨rac, eac⟩
                rw [hacp] at hac heac
                simp only at hac heac
                simp only [fileLess, hacp, heac, Bool.not_false, if_true,
                  asc, hac, Bool.not_true]
                simp
              · -- ascending: rab and rbc are false, so the reverse
                -- comparisons hold strictly
                have hba : (cmpKey o b a).1 = true := by
                  rw [h₁] at hasymab
                  simpa using hasymab.symm
                have hcb : (cmpKey o c b).1 = true := by
                  rw [h₂] at hasymbc
                  simpa using hasymbc.symm
                have hca : (cmpKey o c a).1 = true :=
                  cmpKey_fst_trans (b := b) hcb hba
                have heca : (cmpKey o c a).2 = false :=
                  cmpKey_snd_false_of_fst hca
                have heac : (cmpKey o a c).2 = false := by
                  have hss := cmpKey_snd_symm o a c
                  rw [heca] at hss
                  exact hss
                have hasymac := cmpKey_fst_asym (o := o) (a := a) (b := c)
                  heac
                rw [hca] at hasymac
                rcases hacp : cmpKey o a c with ⟨rac, eac⟩
                rw [hacp] at hasymac heac
                simp only at hasymac heac
                simp only [fileLess, hacp, heac, Bool.not_false, if_true,
                  asc, hasymac, Bool.not_true]

/-- The non-strict relation the sort runs on is transitive. -/
theorem sortLe_trans (opts : List SortOption) (a b c : FileInfo)
    (h₁ : (!fileLess opts b a) = true) (h₂ : (!fileLess opts c b) = true) :
    (!fileLess opts c a) = true := by
  simp only [Bool.not_eq_true'] at h₁ h₂ ⊢
  exact fileLess_negTrans opts c b a h₂ h₁

/-- The non-strict relation the sort runs on is total. -/
theorem sortLe_total (opts : List SortOption) (a b : FileInfo) :
    ((!fileLess opts b a) || (!fileLess opts a b)) = true := by
  by_cases h : fileLess opts b a = true
  · have := fileLess_asym opts b a h
    simp [this]
  · simp [Bool.not_eq_true] at h
    simp [h]

/-- When every supplied key ties, the comparator falls back to ascending
path comparison. -/
theorem fileLess_allTie :
    ∀ (opts : List SortOption) (a b : FileInfo),
      (∀ o ∈ opts, (cmpKey o a b).2 = true) →
      fileLess opts a b = lexLt a.path b.path := by
  intro opts
  induction opts with
  | nil => intro a b _; rfl
  | cons o rest ih =>
      intro a b h
      have ho : (cmpKey o a b).2 = true := h o (List.mem_cons_self o rest)
      rcases hab : cmpKey o a b with ⟨rab, eab⟩
      rw [hab] at ho
      simp only at ho
      subst ho
      simp only [fileLess, hab, Bool.not_true, Bool.false_eq_true,
        ite_false]
      exact ih a b (fun o' ho' => h o' (List.mem_cons_of_mem o ho'))

/-! ### Claim theorems -/

/-- C6: wildcard translation (`useRegex=false`) escapes every regex
metacharacter in the source, replaces `*` with zero-or-more-any-character
and `?` with exactly-one-any-character, anchors the result at both ends
when `pathMatch=false` (so the program matches the entire filename) and
leaves it unanchored when `pathMatch=true` (so it is a substring test
against the full path), and matching is case-insensitive in all modes; in
particular `*.txt` matches `a.txt` (also `A.TXT`) but not `a.txtx`, and
`a?c` matches `abc` but not `ac`. -/
theorem C6_wildcard_translation :
    (∀ p s, wildcardCodeMatch p false s = wildSpecMatch p s) ∧
    (∀ p s, wildcardCodeMatch p true s = true ↔
      ∃ u v w, s = u ++ v ++ w ∧ wildSpecMatch p v = true) ∧
    (∀ c, isDosEscapedChar c = true → dosCharToRegex c = ['\\', c]) ∧
    dosCharToRegex '*' = ['.', '*'] ∧
    dosCharToRegex '?' = ['.'] ∧
    (∀ p, dosPatternToRegex p false =
      '^' :: (p.flatMap dosCharToRegex ++ ['$'])) ∧
    (∀ p, dosPatternToRegex p true = p.flatMap dosCharToRegex) ∧
    (∀ r s, regexSearch r (s.map Char.toLower) = regexSearch r s) ∧
    wildcardCodeMatch "*.txt".data false "a.txt".data = true ∧
    wildcardCodeMatch "*.txt".data false "a.txtx".data = false ∧
    wildcardCodeMatch "a?c".data false "abc".data = true ∧
    wildcardCodeMatch "a?c".data false "ac".data = false ∧
    wildcardCodeMatch "*.txt".data false "A.TXT".data = true := by
  refine ⟨wildcardCodeMatch_name, wildcardCodeMatch_path_iff, ?_, rfl, rfl,
    ?_, ?_, regexSearch_map_toLower, by decide, by decide, by decide,
    by decide, by decide⟩
  · intro c h
    have h1 := isDosEscapedChar_ne_star h
    have h2 := isDosEscapedChar_ne_q h
    simp [dosCharToRegex, h1, h2, h]
  · intro p
    simp [dosPatternToRegex]
  · intro p
    simp [dosPatternToRegex]

/-- Witness for C6 at a concrete input: the escape clause applied to the
metacharacter `+`. -/
theorem C6_wildcard_translation_witness :
    dosCharToRegex '+' = ['\\', '+'] :=
  C6_wildcard_translation.2.2.1 '+' (by decide)

/-- C10: for every wildcard source string the translation produced by
`dosPatternToRegex` is a syntactically valid regular expression, so
compiling a wildcard pattern (`useRegex=false`) never throws and the
invalid-pattern branch of `findFiles` is unreachable in wildcard mode. -/
theorem C10_wildcard_translation_valid :
    (∀ p pm, compilePattern p false pm = some ⟨!pm, regOfWild p, !pm⟩) ∧
    (∀ p pm, (compilePattern p false pm).isSome = true) ∧
    (∀ dir entries p shallow pm,
      findFiles dir entries p false shallow pm =
        findFilesList ⟨!pm, regOfWild p, !pm⟩ shallow pm dir entries) := by
  refine ⟨compilePattern_wildcard, ?_, ?_⟩
  · intro p pm
    rw [compilePattern_wildcard]
    rfl
  · intro dir entries p shallow pm
    unfold findFiles
    rw [compilePattern_wildcard]

/-- C9: sort-specification parsing handles each field letter
(`p`, `n`, `s`, `c`, `m`) independently, a preceding `-` flips only the
direction of the next parsed field and the direction resets to ascending
afterward, unknown characters are skipped, and an empty or all-invalid
specification yields exactly `[(Path, ascending)]`, so the parsed key list
is always non-empty; in particular `"-np"` means Name descending then
Path ascending. -/
theorem C9_parse_sort_options :
    (∀ s, parseSortOptions s ≠ []) ∧
    parseSortOptions [] = [⟨.Path, true⟩] ∧
    (∀ s, parseSortAux true s = [] → parseSortOptions s = [⟨.Path, true⟩]) ∧
    (∀ asc rest, parseSortAux asc ('-' :: rest) = parseSortAux false rest) ∧
    (∀ asc c rest f, sortFieldOf c = some f →
      parseSortAux asc (c :: rest) = ⟨f, asc⟩ :: parseSortAux true rest) ∧
    (∀ asc c rest, ¬c = '-' → sortFieldOf c = none →
      parseSortAux asc (c :: rest) = parseSortAux asc rest) ∧
    sortFieldOf 'p' = some .Path ∧ sortFieldOf 'n' = some .Name ∧
    sortFieldOf 's' = some .Size ∧ sortFieldOf 'c' = some .CreationDate ∧
    sortFieldOf 'm' = some .ModificationDate ∧
    parseSortOptions "-np".data = [⟨.Name, false⟩, ⟨.Path, true⟩] := by
  refine ⟨?_, by decide, ?_, ?_, ?_, ?_, by decide, by decide, by decide,
    by decide, by decide, by decide⟩
  · intro s
    unfold parseSortOptions
    by_cases h : parseSortAux true s = []
    · simp [h]
    · simp [h]
  · intro s h
    unfold parseSortOptions
    simp [h]
  · intro asc rest
    rfl
  · intro asc c rest f h
    have hne : ¬c = '-' := by
      intro he
      subst he
      simp [sortFieldOf] at h
    simp [parseSortAux, hne, h]
  · intro asc c rest hne h
    simp [parseSortAux, hne, h]

/-- Witness for C9 at concrete inputs: `-` applies to the next field
letter, which resets the direction, and unknown characters are skipped. -/
theorem C9_parse_sort_options_witness :
    parseSortAux true ['n', 'p'] = [⟨.Name, true⟩, ⟨.Path, true⟩] ∧
    parseSortAux true ['x', 'p'] = parseSortAux true ['p'] ∧
    parseSortOptions ['z'] = [⟨.Path, true⟩] := by
  refine ⟨?_, ?_, ?_⟩
  · rw [C9_parse_sort_options.2.2.2.2.1 true 'n' ['p'] .Name (by decide),
      C9_parse_sort_options.2.2.2.2.1 true 'p' [] .Path (by decide)]
    rfl
  · exact C9_parse_sort_options.2.2.2.2.2.1 true 'x' ['p'] (by decide)
      (by decide)
  · exact C9_parse_sort_options.2.2.1 ['z'] (by decide)

/-- C7: the date filter keeps a record iff `creationTime >= createdStart`
(when present), `creationTime < createdEnd` (when present, exclusive),
`modificationTime >= modifiedStart` (when present) and
`modificationTime < modifiedEnd` (when present, exclusive), the bounds
combining with logical AND; with no bounds it is a pass-through.  A record
with `creationTime = createdStart` is kept; one with
`modificationTime = modifiedEnd` is dropped. -/
theorem C7_date_filter :
    (∀ cs ce ms me (f : FileInfo),
      dateInclude cs ce ms me f = true ↔
        ((∀ t, cs = some t → t ≤ f.creationTime) ∧
         (∀ t, ce = some t → f.creationTime < t) ∧
         (∀ t, ms = some t → t ≤ f.modificationTime) ∧
         (∀ t, me = some t → f.modificationTime < t))) ∧
    (∀ files cs ce ms me, filterFilesByDate files cs ce ms me =
      files.filter (dateInclude cs ce ms me)) ∧
    (∀ files, filterFilesByDate files none none none none = files) ∧
    (∀ t p mt sz, dateInclude (some t) none none none ⟨p, t, mt, sz⟩ =
      true) ∧
    (∀ t p ct sz, dateInclude none none none (some t) ⟨p, ct, t, sz⟩ =
      false) := by
  refine ⟨?_, fun _ _ _ _ _ => rfl, ?_, ?_, ?_⟩
  · intro cs ce ms me f
    unfold dateInclude
    cases cs <;> cases ce <;> cases ms <;> cases me <;>
      simp [dateInclude, not_lt, and_assoc]
  · intro files
    show files.filter (dateInclude none none none none) = files
    have h : ∀ f : FileInfo, dateInclude none none none none f = true :=
      fun _ => rfl
    simp [List.filter_eq_self]
    intro a _
    exact h a
  · intro t p mt sz
    simp [dateInclude]
  · intro t p ct sz
    simp [dateInclude]

/-- C4 counterexample: the claim says a directory value that literally
contains `%n` is not substituted again by a later pass, predicting
`"d%n"` (quoted) for template `%d` on path `d%n\\f`; the program instead
re-substitutes inside the inserted text on the later `%n` pass. -/
theorem C4_render_counterexample :
    renderCommand "%d".data "d%n\\f".data = "\"d\"f\"\"".data ∧
    ¬renderCommand "%d".data "d%n\\f".data = "\"d%n\"".data := by
  constructor
  · decide
  · decide

/-- C4 (amended): rendering replaces `%d` with the quoted containing
directory (`"."` when the path has no separator), `%n` with the quoted
base filename and `%f` with the quoted full path, in the pass order `%d`,
`%n`, `%f`; each pass scans left-to-right and advances past each inserted
replacement, so text inserted by a pass is never re-scanned by that same
pass — but each later pass scans the whole intermediate string, including
text inserted by earlier passes, so a value containing a later
placeholder is substituted again. -/
theorem C4_render_passes :
    (∀ p₁ p₂ qv rest, replacePlaceholder p₁ p₂ qv (p₁ :: p₂ :: rest) =
      qv ++ replacePlaceholder p₁ p₂ qv rest) ∧
    (∀ tmpl path, renderCommand tmpl path =
      replacePlaceholder '%' 'f' (quoteStr path)
        (replacePlaceholder '%' 'n'
          (quoteStr (baseNameAfterLastSlash path))
          (replacePlaceholder '%' 'd'
            (quoteStr (if path.contains '\\' then dirBeforeLastSlash path
              else ['.'])) tmpl))) ∧
    renderCommand "echo %n in %d".data "C:\\x\\y.txt".data =
      "echo \"y.txt\" in \"C:\\x\"".data ∧
    renderCommand "x %d".data "hello.txt".data = "x \".\"".data ∧
    renderCommand "run %f".data "C:\\x\\y.txt".data =
      "run \"C:\\x\\y.txt\"".data := by
  refine ⟨?_, fun _ _ => rfl, by decide, by decide, by decide⟩
  · intro p₁ p₂ qv rest
    simp [replacePlaceholder]

/-- C1 counterexample: with `useRegex=true` and `pathMatch=false` the
pattern `b` is compiled verbatim (no anchors) and `findFiles` matches the
filename `abc` by substring search, although an anchored-entire match of
`b` against `abc` fails — so name-mode regex matching is not
anchored-entire. -/
theorem C1_regex_anchoring_counterexample :
    compilePattern ['b'] true false =
      some ⟨false, .seq (.lit 'b') .eps, false⟩ ∧
    findFiles ['r'] [.file ['a', 'b', 'c'] ⟨2020, 1, 1, 0, 0, 0⟩
        ⟨2020, 1, 1, 0, 0, 0⟩ 1] ['b'] true false false =
      [⟨['r', '\\', 'a', 'b', 'c'], 1577836800, 1577836800, 1⟩] ∧
    (Reg.seq (.lit 'b') .eps).accepts ['a', 'b', 'c'] = false := by
  refine ⟨by decide, by decide, by decide⟩

/-- C1 (amended): with `useRegex=true` the pattern source is compiled
verbatim — independently of `pathMatch`, which therefore changes only the
candidate string (full path when `pathMatch=true`, bare filename
otherwise) — and matching is `std::regex_search` in both modes; for a
pattern without anchors that is exactly a substring test. -/
theorem C1_regex_mode_match :
    (∀ p pm, compilePattern p true pm = parseRegex p) ∧
    (∀ (pm : Bool) (name fullPath : WStr), stringToMatch pm name fullPath =
      if pm then fullPath else name) ∧
    (∀ b s, regexSearch ⟨false, b, false⟩ s = true ↔
      ∃ u v w, s = u ++ v ++ w ∧ b.accepts v = true) := by
  exact ⟨fun _ _ => rfl, fun _ _ _ => rfl, regexSearch_unanchored_iff⟩

/-- C2 counterexample: for the malformed regex `*` (a quantifier with
nothing to repeat) the search does return no partial results, but the
program does not terminate with a non-zero status: `findFiles` swallows
the error and returns an empty list, the run continues, and the exit
status is 0 — even when `--execute` was requested, since no file is
processed. -/
theorem C2_invalid_pattern_counterexample :
    compilePattern ['*'] true false = none ∧
    findFiles ['r'] [.file ['a'] ⟨2020, 1, 1, 0, 0, 0⟩
      ⟨2020, 1, 1, 0, 0, 0⟩ 1] ['*'] true false false = [] ∧
    mainExitCode none (fun _ => false) [] false false = 0 ∧
    mainExitCode (some ['x']) (fun _ => false) [] false false = 0 := by
  refine ⟨by decide, by decide, rfl, rfl⟩

/-- C2 (amended): for every malformed pattern source the whole search
yields no partial results — `findFiles` prints its diagnostic and returns
the empty list — but the program does not terminate: the run continues
with zero matches and exits 0 unless some command execution failed (in
particular, without `--execute`, always 0). -/
theorem C2_invalid_pattern_behavior :
    (∀ dir entries p useRegex shallow pm,
      compilePattern p useRegex pm = none →
      findFiles dir entries p useRegex shallow pm = []) ∧
    (∀ cmd spawnOk dryRun debug,
      mainExitCode cmd spawnOk [] dryRun debug = 0) ∧
    (∀ spawnOk results dryRun debug,
      mainExitCode none spawnOk results dryRun debug = 0) := by
  refine ⟨?_, ?_, fun _ _ _ _ => rfl⟩
  · intro dir entries p useRegex shallow pm h
    unfold findFiles
    rw [h]
  · intro cmd spawnOk dryRun debug
    cases cmd with
    | none => rfl
    | some c => rfl

/-- Witness for C2 (amended) at a concrete input: the invalid regex `(`
compiles to nothing and the search returns no results. -/
theorem C2_invalid_pattern_behavior_witness :
    findFiles ['r'] [.file ['a'] ⟨2020, 1, 1, 0, 0, 0⟩
      ⟨2020, 1, 1, 0, 0, 0⟩ 1] ['('] true false false = [] :=
  C2_invalid_pattern_behavior.1 ['r'] [.file ['a'] ⟨2020, 1, 1, 0, 0, 0⟩
    ⟨2020, 1, 1, 0, 0, 0⟩ 1] ['('] true false false (by decide)

/-- C3 counterexample: the date bounds returned by `parseDateTime` depend
on the ambient local timezone, because the source converts them with
`mktime` (local) while the traversal converts file times with
`_mkgmtime` (UTC): the same record and the same literal bound are kept in
UTC but dropped at UTC-1. -/
theorem C3_timezone_counterexample :
    ¬parseDateTime (-3600) "20200101".data =
      parseDateTime 0 "20200101".data ∧
    filterFilesByDate [mkFileInfo ['a'] ⟨2020, 1, 1, 0, 30, 0⟩
        ⟨2020, 1, 1, 0, 30, 0⟩ 1]
      (parseDateTime 0 "20200101".data) none none none =
      [mkFileInfo ['a'] ⟨2020, 1, 1, 0, 30, 0⟩ ⟨2020, 1, 1, 0, 30, 0⟩ 1] ∧
    filterFilesByDate [mkFileInfo ['a'] ⟨2020, 1, 1, 0, 30, 0⟩
        ⟨2020, 1, 1, 0, 30, 0⟩ 1]
      (parseDateTime (-3600) "20200101".data) none none none = [] := by
  refine ⟨by decide, by decide, by decide⟩

/-- C3 (amended): the two sides of the date comparisons are built with
different timezone conversions.  Traversal timestamps are produced by the
fixed UTC chain `FileTimeToSystemTime` + `_mkgmtime`, independent of the
ambient timezone; the bounds returned by `parseDateTime` go through
`mktime` and are therefore offset by the ambient local timezone.  Both
sides are absolute epoch seconds, so each individual comparison is still
well-ordered, but the filter outcome varies with the ambient timezone. -/
theorem C3_timezone_conversions :
    (∀ fp stC stW sz,
      (mkFileInfo fp stC stW sz).creationTime =
        tmToSecondsUTC (tmOfSystemTime stC) ∧
      (mkFileInfo fp stC stW sz).modificationTime =
        tmToSecondsUTC (tmOfSystemTime stW)) ∧
    (∀ tz s t, parseDateTime tz s = some t →
      ∃ tm, matchDateFormat s = some tm ∧ t = tmToSecondsUTC tm - tz) := by
  refine ⟨fun _ _ _ _ => ⟨rfl, rfl⟩, ?_⟩
  intro tz s t h
  unfold parseDateTime at h
  cases hm : matchDateFormat s with
  | none => rw [hm] at h; exact Option.noConfusion h
  | some tm =>
      rw [hm] at h
      simp only at h
      by_cases hz : mktime tz tm = -1
      · rw [if_pos hz] at h
        exact Option.noConfusion h
      · rw [if_neg hz] at h
        injection h with h
        exact ⟨tm, rfl, h.symm⟩

/-- Witness for C3 (amended) at a concrete input: a parsed bound equals
the UTC value of its calendar fields minus the timezone offset. -/
theorem C3_timezone_conversions_witness :
    ∃ tm, matchDateFormat "20200101".data = some tm ∧
      (1577840400 : Int) = tmToSecondsUTC tm - (-3600) :=
  C3_timezone_conversions.2 (-3600) "20200101".data 1577840400 (by decide)

/-- C5: `sortFiles` is a stable sort yielding a total order: the output
is a permutation of the input, sorted so that no record strictly precedes
(under the comparator) an earlier one; comparator-tied records keep their
input order (stability); keys are evaluated in order, the first key whose
values differ deciding per that key direction (with `Name` comparing the
substring after the last separator), and ascending path is the final
tie-break when every supplied key ties.  With key `[(Size, asc)]` and two
size-tied records with paths `b` and `a`, `a` is ordered before `b`. -/
theorem C5_sort_files :
    (∀ files opts, (sortFiles files opts).Perm files) ∧
    (∀ files opts, (sortFiles files opts).Pairwise
      (fun a b => (!fileLess opts b a) = true)) ∧
    (∀ files opts (c : List FileInfo),
      c.Pairwise (fun a b => (!fileLess opts b a) = true) →
      c.Sublist files → c.Sublist (sortFiles files opts)) ∧
    (∀ opts a b, (∀ o ∈ opts, (cmpKey o a b).2 = true) →
      fileLess opts a b = lexLt a.path b.path) ∧
    (∀ a b, fileLess [] a b = lexLt a.path b.path) ∧
    (∀ o rest a b, (cmpKey o a b).2 = false →
      fileLess (o :: rest) a b =
        (if o.ascending then (cmpKey o a b).1 else !(cmpKey o a b).1)) ∧
    (∀ o rest a b, (cmpKey o a b).2 = true →
      fileLess (o :: rest) a b = fileLess rest a b) ∧
    (∀ asc a b, cmpKey ⟨.Name, asc⟩ a b =
      (lexLt (baseNameAfterLastSlash a.path)
        (baseNameAfterLastSlash b.path),
       baseNameAfterLastSlash a.path == baseNameAfterLastSlash b.path)) ∧
    (∀ opts a b, fileLess opts a b = true → fileLess opts b a = false) ∧
    sortFiles [⟨['b'], 0, 0, 1⟩, ⟨['a'], 0, 0, 1⟩] [⟨.Size, true⟩] =
      [⟨['a'], 0, 0, 1⟩, ⟨['b'], 0, 0, 1⟩] := by
  refine ⟨?_, ?_, ?_, fileLess_allTie, fun _ _ => rfl, ?_, ?_,
    fun _ _ _ => rfl, fileLess_asym, ?_⟩
  · intro files opts
    exact List.mergeSort_perm files _
  · intro files opts
    exact List.sorted_mergeSort (sortLe_trans opts) (sortLe_total opts)
      files
  · intro files opts c hp hs
    exact List.sublist_mergeSort (sortLe_trans opts) (sortLe_total opts)
      hp hs
  · intro o rest a b h
    rcases hab : cmpKey o a b with ⟨rab, eab⟩
    rw [hab] at h
    simp only at h
    subst h
    simp [fileLess, hab]
  · intro o rest a b h
    rcases hab : cmpKey o a b with ⟨rab, eab⟩
    rw [hab] at h
    simp only at h
    subst h
    simp [fileLess, hab]
  · have hperm : (sortFiles [⟨['b'], 0, 0, 1⟩, ⟨['a'], 0, 0, 1⟩]
        [⟨.Size, true⟩]).Perm [⟨['a'], 0, 0, 1⟩, ⟨['b'], 0, 0, 1⟩] := by
      refine (List.mergeSort_perm _ _).trans ?_
      exact List.Perm.swap _ _ _
    have hsorted₁ := @List.sorted_mergeSort FileInfo
      (fun x y => !fileLess [⟨.Size, true⟩] y x)
      (sortLe_trans _) (sortLe_total _)
      [⟨['b'], 0, 0, 1⟩, ⟨['a'], 0, 0, 1⟩]
    have hsorted₂ : List.Pairwise
        (fun x y => (!fileLess [⟨.Size, true⟩] y x) = true)
        [⟨['a'], 0, 0, 1⟩, ⟨['b'], 0, 0, 1⟩] := by decide
    refine List.Perm.eq_of_sorted ?_ hsorted₁ hsorted₂ hperm
    intro a b ha hb h1 h2
    have ha' := hperm.mem_iff.mp ha
    simp only [List.mem_cons, List.not_mem_nil, or_false] at ha' hb
    rcases ha' with rfl | rfl <;> rcases hb with rfl | rfl <;>
      revert h1 h2 <;> decide

/-- Witness for C5 at a concrete input: two size-tied records fall back
to the ascending path comparison. -/
theorem C5_sort_files_witness :
    fileLess [⟨.Size, true⟩] ⟨['a'], 0, 0, 1⟩ ⟨['b'], 0, 0, 1⟩ =
      lexLt ['a'] ['b'] :=
  C5_sort_files.2.2.2.1 [⟨.Size, true⟩] ⟨['a'], 0, 0, 1⟩ ⟨['b'], 0, 0, 1⟩
    (by decide)

/-- C8: in dry-run mode `executeCommand` never spawns a process and
always reports success, printing the rendered command (or the source path
paired with it in the verbose/debug print mode); in live mode it spawns
the rendered command line, waits for it, and reports success iff process
creation succeeded (independently of the exit status of the child, which
is never inspected); a launch failure is per-file and non-fatal — every
file is still processed — and the final exit status is 1 iff at least one
launch failed. -/
theorem C8_execute_command :
    (∀ spawnOk tmpl fi debug,
      (executeCommand spawnOk tmpl fi true debug).spawned = [] ∧
      (executeCommand spawnOk tmpl fi true debug).ok = true ∧
      (executeCommand spawnOk tmpl fi true debug).printed =
        [if debug
         then fi.path ++ (' ' :: '-' :: '>' :: ' ' ::
           renderCommand tmpl fi.path)
         else renderCommand tmpl fi.path]) ∧
    (∀ spawnOkA spawnOkB tmpl fi debug,
      executeCommand spawnOkA tmpl fi true debug =
        executeCommand spawnOkB tmpl fi true debug) ∧
    (∀ spawnOk tmpl fi debug,
      (executeCommand spawnOk tmpl fi false debug).ok =
        spawnOk (renderCommand tmpl fi.path) ∧
      (executeCommand spawnOk tmpl fi false debug).spawned =
        [renderCommand tmpl fi.path]) ∧
    (∀ spawnOk tmpl files dryRun debug,
      runCommandPhase spawnOk tmpl files dryRun debug =
        files.map (fun f => executeCommand spawnOk tmpl f dryRun debug)) ∧
    (∀ spawnOk tmpl files debug,
      (mainExitCode (some tmpl) spawnOk files false debug = 1 ↔
        ∃ f ∈ files, spawnOk (renderCommand tmpl f.path) = false)) ∧
    (∀ spawnOk tmpl files debug,
      mainExitCode (some tmpl) spawnOk files true debug = 0) := by
  refine ⟨?_, ?_, ?_, fun _ _ _ _ _ => rfl, ?_, ?_⟩
  · intro spawnOk tmpl fi debug
    exact ⟨rfl, rfl, rfl⟩
  · intro spawnOkA spawnOkB tmpl fi debug
    rfl
  · intro spawnOk tmpl fi debug
    exact ⟨rfl, rfl⟩
  · intro spawnOk tmpl files debug
    have hcond : ((runCommandPhase spawnOk tmpl files false debug).any
        (fun o => !o.ok)) =
        files.any (fun f => !spawnOk (renderCommand tmpl f.path)) := by
      show ((files.map (fun f => executeCommand spawnOk tmpl f false
        debug)).any (fun o => !o.ok)) = _
      induction files with
      | nil => rfl
      | cons g gs ih =>
          rw [List.map_cons, List.any_cons, List.any_cons, ih]
          rfl
    show (if ((runCommandPhase spawnOk tmpl files false debug).any
        (fun o => !o.ok)) = true then 1 else 0) = 1 ↔ _
    rw [hcond]
    by_cases hb : files.any
        (fun f => !spawnOk (renderCommand tmpl f.path)) = true
    · rw [if_pos hb]
      constructor
      · intro _
        obtain ⟨f, hf, hok⟩ := List.any_eq_true.mp hb
        exact ⟨f, hf, by simpa using hok⟩
      · intro _
        rfl
    · rw [if_neg hb]
      constructor
      · intro h
        exact absurd h (by decide)
      · rintro ⟨f, hf, hok⟩
        exact absurd (List.any_eq_true.mpr ⟨f, hf, by simpa using hok⟩) hb
  · intro spawnOk tmpl files debug
    show (if ((runCommandPhase spawnOk tmpl files true debug).any
        (fun o => !o.ok)) = true then 1 else 0) = 0
    rw [if_neg]
    intro h
    obtain ⟨o, ho, hok⟩ := List.any_eq_true.mp h
    simp only [runCommandPhase, List.mem_map] at ho
    obtain ⟨f, hf, hfe⟩ := ho
    subst hfe
    have hoktrue : (executeCommand spawnOk tmpl f true debug).ok = true :=
      rfl
    rw [hoktrue] at hok
    exact Bool.noConfusion hok

end FindFiles
